import Mathlib

/-!
Verification development for the `json` command-line tool (`src/main.cpp`).

The two functions with semantics are embedded as pure Lean functions:

* `pretty_print_json` (main.cpp 54-93): the recursive pretty-printer; the text
  written to the stream is the returned character list;
* `print_value` (main.cpp 95-127): the `std::getline` splitting loop
  (`split_path`), the resolution loop (`resolve_keys`, one iteration is
  `resolve_step`) and the final print.

A `std::string` is a `List Char`.  The splitter only looks for the byte `:` and
`std::stoul` only looks at ASCII bytes; no byte of a multi-byte UTF-8 sequence
is ASCII, so working with code points instead of bytes changes nothing.
-/

namespace Json

/-- A `std::string` / `string_view`. -/
abbrev Str := List Char

/-- The `boost::json::value` tagged union.  An object is the list of its
entries in iteration (insertion) order, with pairwise different keys; an array
is the list of its elements.  `int64` carries a value in `[-2^63, 2^63)`,
`uint64` a value in `[0, 2^64)`, `double` the IEEE-754 binary64 bit pattern. -/
inductive Value where
  | object (entries : List (Str × Value))
  | array (elems : List Value)
  | string (s : Str)
  | int64 (i : Int)
  | uint64 (u : Nat)
  | double (bits : Nat)
  | bool (b : Bool)
  | null

/-- The two stream inserters that `pretty_print_json` uses and that are defined
by libraries outside this repository: `os << json::string` (Boost.JSON) and
`os << double` (the C++ standard library, locale and stream flags). -/
structure Inserters where
  put_string : Str → Str
  put_double : Nat → Str

/-- `os << uint64_t`: the decimal digits. -/
def put_uint64 (u : Nat) : Str := Nat.toDigits 10 u

/-- `os << int64_t`: a minus sign for a negative number, then the decimal digits
of the magnitude. -/
def put_int64 : Int → Str
  | Int.ofNat n => Nat.toDigits 10 n
  | Int.negSucc n => '-' :: Nat.toDigits 10 (n + 1)

/-- `std::string indent_str(indent, ' ')` (main.cpp 55). -/
def indent_str (indent : Nat) : Str := List.replicate indent ' '

mutual
/-- `pretty_print_json(value, os, indent)` (main.cpp 54-93): the text appended
to `os`.  The `int indent` starts at 0 and grows by 2 with each nesting level;
it is a natural number here (an `int` holds every indent of a document nested
less than `2^30` deep). -/
def pretty_print_json (os : Inserters) : Value → Nat → Str
  | Value.object obj, indent =>
      ['\x7b', '\n'] ++ print_members os obj indent ++ indent_str indent ++ ['\x7d']
  | Value.array arr, indent =>
      ['[', '\n'] ++ print_elements os arr indent ++ indent_str indent ++ [']']
  | Value.string s, _ => os.put_string s
  | Value.int64 i, _ => put_int64 i
  | Value.uint64 u, _ => put_uint64 u
  | Value.double d, _ => os.put_double d
  | Value.bool b, _ => if b then "true".toList else "false".toList
  | Value.null, _ => "null".toList
/-- The object loop (main.cpp 59-66), started at the iterator whose remaining
range is the given list; `std::next(it) != obj.end()` holds when the rest is
not empty. -/
def print_members (os : Inserters) : List (Str × Value) → Nat → Str
  | [], _ => []
  | (key, v) :: rest, indent =>
      indent_str indent ++ [' ', ' ', '"'] ++ key ++ ['"', ':', ' ']
        ++ pretty_print_json os v (indent + 2)
        ++ (if rest.isEmpty then [] else [','])
        ++ ['\n'] ++ print_members os rest indent
/-- The array loop (main.cpp 71-78). -/
def print_elements (os : Inserters) : List Value → Nat → Str
  | [], _ => []
  | v :: rest, indent =>
      indent_str indent ++ [' ', ' ']
        ++ pretty_print_json os v (indent + 2)
        ++ (if rest.isEmpty then [] else [','])
        ++ ['\n'] ++ print_elements os rest indent
end

/-! ## The splitter: `while (std::getline(ss, key, ':')) keys.push_back(key);` -/

/-- One call `std::getline(ss, key, delim)` on a stream whose unread characters
are `ss`: characters are extracted up to the first `delim` (extracted and
dropped) or to the end.  The result is the key and the characters left unread.
(The caller tests the stream: the call fails exactly when nothing at all was
extracted, that is when `ss` was already at its end.) -/
def getline (delim : Char) : Str → Str × Str
  | [] => ([], [])
  | c :: cs =>
      if c = delim then ([], cs)
      else ((c :: (getline delim cs).1), (getline delim cs).2)

/-- The `while (std::getline(ss, key, ':'))` loop (main.cpp 99-101) with an
iteration bound: each call on a stream with unread characters extracts at least
one of them, a call on an exhausted stream sets `failbit` and ends the loop. -/
def getline_loop : Nat → Str → List Str
  | 0, _ => []
  | fuel + 1, ss =>
      if ss.isEmpty then []
      else (getline ':' ss).1 :: getline_loop fuel (getline ':' ss).2

/-- The `keys` vector that `print_value` builds from `property`
(main.cpp 96-101).  `property.length` iterations always suffice
(`getline_loop_fuel`). -/
def split_path (property : Str) : List Str := getline_loop property.length property

/-! ## `std::stoul` -/

/-- `ULONG_MAX` for the 64-bit `unsigned long` of LP64 platforms. -/
def ULONG_MAX : Nat := 2 ^ 64 - 1

/-- `isspace` in the "C" locale. -/
def isspace (c : Char) : Bool :=
  c = ' ' || c = '\t' || c = '\n' || c = '\x0b' || c = '\x0c' || c = '\r'

/-- The value of a decimal digit. -/
def digit_value (c : Char) : Option Nat :=
  if c.isDigit then some (c.toNat - '0'.toNat) else none

/-- Leading white space is skipped by `strtoul`. -/
def skip_space (s : Str) : Str := s.dropWhile isspace

/-- An optional sign is read by `strtoul`: whether it was a minus sign, and the
characters after it. -/
def strip_sign : Str → Bool × Str
  | [] => (false, [])
  | c :: r => if c = '-' then (true, r) else if c = '+' then (false, r) else (false, c :: r)

/-- The longest prefix of decimal digits, read left to right; `acc` is `none`
until the first digit has been read. -/
def scan_digits : Str → Option Nat → Option Nat
  | [], acc => acc
  | c :: cs, acc =>
      match digit_value c with
      | some d => scan_digits cs (some (acc.getD 0 * 10 + d))
      | none => acc

/-- What `std::stoul(k)` does: return a value, or throw one of its two
exceptions. -/
inductive StoulResult where
  | value (n : Nat)
  | invalid_argument
  | out_of_range
  deriving DecidableEq, Repr

/-- `std::stoul(s)` = `strtoul(s.c_str(), &end, 10)` with the two checks of the
standard library wrapper: white space is skipped, one sign is accepted, then
the longest run of digits is converted and whatever follows is ignored.  No
digit: `std::invalid_argument`.  Magnitude above `ULONG_MAX` (`ERANGE`):
`std::out_of_range`.  A minus sign negates the magnitude modulo `2^64`. -/
def stoul (s : Str) : StoulResult :=
  let signed := strip_sign (skip_space s)
  match scan_digits signed.2 none with
  | none => StoulResult.invalid_argument
  | some m =>
      if m > ULONG_MAX then StoulResult.out_of_range
      else StoulResult.value (if signed.1 then (ULONG_MAX + 1 - m) % (ULONG_MAX + 1) else m)

/-! ## The resolver loop of `print_value` -/

/-- The three failures that `print_value` reports itself. -/
inductive ErrorKind where
  | NotFound
  | InvalidArrayIndex
  | IndexOutOfBounds
  deriving DecidableEq, Repr

/-- How one iteration, or the whole loop, ends: with a current value, with a
reported failure (message printed, `return EXIT_FAILURE`), or with the
`std::out_of_range` of `std::stoul`, for which the `try` block has no handler
and which leaves `print_value` as an exception. -/
inductive Outcome where
  | found (v : Value)
  | failed (e : ErrorKind)
  | uncaught_out_of_range

/-- `obj.contains(k)`. -/
def object_contains (obj : List (Str × Value)) (k : Str) : Bool :=
  obj.any (fun kv => kv.1 = k)

/-- `obj.at(k)`: the value of the entry with key `k`. -/
def object_at : List (Str × Value) → Str → Option Value
  | [], _ => none
  | (key, v) :: rest, k => if key = k then some v else object_at rest k

/-- One iteration of `for (const auto &k: keys)` (main.cpp 105-123). -/
def resolve_step (current : Value) (k : Str) : Outcome :=
  match current with
  | Value.object obj =>
      if object_contains obj k then
        match object_at obj k with
        | some v => Outcome.found v
        | none => Outcome.failed ErrorKind.NotFound
      else Outcome.failed ErrorKind.NotFound
  | Value.array arr =>
      match stoul k with
      | StoulResult.value index =>
          if h : index < arr.length then Outcome.found (arr.get ⟨index, h⟩)
          else Outcome.failed ErrorKind.IndexOutOfBounds
      | StoulResult.invalid_argument => Outcome.failed ErrorKind.InvalidArrayIndex
      | StoulResult.out_of_range => Outcome.uncaught_out_of_range
  | _ => Outcome.failed ErrorKind.NotFound

/-- The loop `for (const auto &k: keys)` (main.cpp 103-124) from the given
current value. -/
def resolve_keys : Value → List Str → Outcome
  | current, [] => Outcome.found current
  | current, k :: keys =>
      match resolve_step current k with
      | Outcome.found next => resolve_keys next keys
      | Outcome.failed e => Outcome.failed e
      | Outcome.uncaught_out_of_range => Outcome.uncaught_out_of_range

/-- Path resolution as `print_value` performs it: split, then walk. -/
def resolve (value : Value) (property : Str) : Outcome :=
  resolve_keys value (split_path property)

/-- The message `print_value` writes for a failure (main.cpp 113, 117, 121). -/
def error_message : ErrorKind → Str
  | ErrorKind.NotFound => "Not found\n".toList
  | ErrorKind.InvalidArrayIndex => "Invalid array index\n".toList
  | ErrorKind.IndexOutOfBounds => "Index out of bounds\n".toList

/-- `EXIT_SUCCESS`. -/
def EXIT_SUCCESS : Nat := 0

/-- `EXIT_FAILURE`. -/
def EXIT_FAILURE : Nat := 1

/-- How a call of `print_value` ends: it returns a status after writing `out`
to `std::cout`, or the exception of `std::stoul` propagates to the caller (then
nothing has been written). -/
inductive PrintValueResult where
  | returned (out : Str) (status : Nat)
  | threw_out_of_range

/-- `print_value(value, property)` (main.cpp 95-127). -/
def print_value (os : Inserters) (value : Value) (property : Str) : PrintValueResult :=
  match resolve value property with
  | Outcome.found v => PrintValueResult.returned (pretty_print_json os v 0) EXIT_SUCCESS
  | Outcome.failed e => PrintValueResult.returned (error_message e) EXIT_FAILURE
  | Outcome.uncaught_out_of_range => PrintValueResult.threw_out_of_range

/-- The document `{"a": {"b": [10, 20, 30]}}`. -/
def doc_ab : Value :=
  Value.object [("a".toList, Value.object [("b".toList,
    Value.array [Value.int64 10, Value.int64 20, Value.int64 30])])]

/-! ## Notions used to state the properties -/

/-- The path is empty or its last character is the separator `:`. -/
def ends_open (p : Str) : Prop := p = [] ∨ p.getLast? = some ':'

instance ends_open_decidable (p : Str) : Decidable (ends_open p) := by
  unfold ends_open; infer_instance

/-- A non-negative base-10 integer literal: a non-empty string of decimal
digits and nothing else. -/
def is_index_literal (s : Str) : Bool := !s.isEmpty && s.all Char.isDigit

/-- After leading white space and at most one sign character, the next
character of the segment is a decimal digit. -/
def has_index_prefix (s : Str) : Bool :=
  match s.dropWhile isspace with
  | [] => false
  | c :: rest =>
      if c = '+' ∨ c = '-' then
        match rest with
        | [] => false
        | c2 :: _ => c2.isDigit
      else c.isDigit

/-- The keys of an object are pairwise different. -/
def unique_keys (obj : List (Str × Value)) : Prop := (obj.map Prod.fst).Nodup

/-- The document `[10, 20, 30]`. -/
def doc_array : Value := Value.array [Value.int64 10, Value.int64 20, Value.int64 30]

/-- The document `{"a": 1}`. -/
def doc_a1 : Value := Value.object [("a".toList, Value.int64 1)]

/-- The `--value` branch of `main` (main.cpp 192-204) for a parsed document:
the text on `std::cout` and the process exit status.  A status `EXIT_FAILURE`
of `print_value` is passed on; an exception that leaves `print_value` is caught
by the handler of `main`, which writes to `std::cerr` only and returns
`EXIT_FAILURE`; otherwise `main` returns `EXIT_SUCCESS`. -/
def main_value (os : Inserters) (value : Value) (property : Str) : Str × Nat :=
  match print_value os value property with
  | PrintValueResult.returned out status =>
      if status = EXIT_FAILURE then (out, EXIT_FAILURE) else (out, EXIT_SUCCESS)
  | PrintValueResult.threw_out_of_range => ([], EXIT_FAILURE)

/-! ## The Boost.JSON stream inserter for `json::string`

`value.as_string()` is a `boost::json::string`, and `os << value.as_string()`
(main.cpp 81) calls the inserter that Boost.JSON declares in
`boost/json/string.hpp`: "Serialize string to an output stream.  This function
serializes a string as JSON into the output stream."  It runs the library's
`serializer` on the string, which writes a JSON string literal: a double quote,
the characters with the JSON escapes, a double quote.  (An object key is a
`string_view`; its inserter writes the characters as they are.) -/

/-- One character of a string as the Boost.JSON `serializer` writes it: `"` and
`\` get a backslash, the control characters below U+0020 become `\b`, `\t`,
`\n`, `\f`, `\r` or `\u00XX` with lower-case hexadecimal digits, and every other
character is written as it is. -/
def escape_char (c : Char) : Str :=
  if c = '"' then ['\\', '"']
  else if c = '\\' then ['\\', '\\']
  else if c = '\x08' then ['\\', 'b']
  else if c = '\t' then ['\\', 't']
  else if c = '\n' then ['\\', 'n']
  else if c = '\x0c' then ['\\', 'f']
  else if c = '\r' then ['\\', 'r']
  else if c.toNat < 32 then
    ['\\', 'u', '0', '0', Nat.digitChar (c.toNat / 16), Nat.digitChar (c.toNat % 16)]
  else [c]

/-- What `os << json::string` writes: the string serialized as JSON. -/
def serialize_string (s : Str) : Str :=
  ['"'] ++ s.flatMap escape_char ++ ['"']

/-- The inserters of the program: Boost.JSON's for `json::string`; the one for
`double` (standard library, `%g`-like with the stream's precision) stays a
parameter. -/
def boost_inserters (put_double : Nat → Str) : Inserters :=
  { put_string := serialize_string, put_double := put_double }

/-- The inserters that the specification describes: a String is "emitted
verbatim (no added quotes, no escape processing)". -/
def verbatim_inserters (put_double : Nat → Str) : Inserters :=
  { put_string := fun s => s, put_double := put_double }

/-- The document `{"x": 1, "y": [true, null, "s"]}`. -/
def doc_xy : Value :=
  Value.object [("x".toList, Value.int64 1),
    ("y".toList, Value.array [Value.bool true, Value.null, Value.string "s".toList])]

/-- Reading a decimal numeral back: the value of a non-empty string of decimal
digits, nothing for any other string. -/
def read_nat (s : Str) : Option Nat :=
  if s.isEmpty then none
  else if s.all Char.isDigit then
    some (s.foldl (fun n c => n * 10 + (c.toNat - '0'.toNat)) 0)
  else none

/-- Reading a signed decimal numeral back: an optional leading minus sign, then
a numeral as for `read_nat`. -/
def read_int : Str → Option Int
  | [] => none
  | c :: r =>
      if c = '-' then (read_nat r).map (fun n => -(n : Int))
      else (read_nat (c :: r)).map (fun n => (n : Int))

/-- The text with `e` spaces inserted immediately after every newline. -/
def shift_indent (e : Nat) (text : Str) : Str :=
  text.flatMap (fun c => if c = '\n' then '\n' :: List.replicate e ' ' else [c])

mutual
/-- No String value and no Object key of the value contains a newline. -/
def newline_free : Value → Bool
  | Value.object obj => members_newline_free obj
  | Value.array arr => elements_newline_free arr
  | Value.string s => decide ('\n' ∉ s)
  | _ => true
/-- No key and no value of the entries contains a newline. -/
def members_newline_free : List (Str × Value) → Bool
  | [] => true
  | (key, v) :: rest => decide ('\n' ∉ key) && newline_free v && members_newline_free rest
/-- No element contains a newline. -/
def elements_newline_free : List Value → Bool
  | [] => true
  | v :: rest => newline_free v && elements_newline_free rest
end

end Json

/-! Lemmas and theorems. -/

namespace Json

/-! ## The splitter -/

theorem getline_snd_length_le (d : Char) (ss : Str) :
    (getline d ss).2.length ≤ ss.length - 1 := by
  induction ss with
  | nil => simp [getline]
  | cons c cs ih =>
    by_cases h : c = d
    · simp [getline, h]
    · simp only [getline, h, if_false, List.length_cons, Nat.add_sub_cancel]
      omega

theorem getline_loop_nil (fuel : Nat) : getline_loop fuel [] = [] := by
  cases fuel <;> simp [getline_loop]

/-- Any two iteration bounds that are at least the number of unread characters
give the same keys: the bound in `split_path` never cuts the loop short. -/
theorem getline_loop_fuel (n m : Nat) (ss : Str) (hn : ss.length ≤ n) (hm : ss.length ≤ m) :
    getline_loop n ss = getline_loop m ss := by
  induction n generalizing m ss with
  | zero =>
    have : ss = [] := List.length_eq_zero.mp (Nat.le_zero.mp hn)
    subst this
    simp [getline_loop_nil]
  | succ n ih =>
    cases m with
    | zero =>
      have : ss = [] := List.length_eq_zero.mp (Nat.le_zero.mp hm)
      subst this
      simp [getline_loop_nil]
    | succ m =>
      cases ss with
      | nil => simp [getline_loop_nil]
      | cons c cs =>
        have hlen := getline_snd_length_le ':' (c :: cs)
        simp only [List.length_cons, Nat.add_sub_cancel] at hlen hn hm
        simp only [getline_loop, List.isEmpty_cons, Bool.false_eq_true, if_false]
        rw [ih m _ (by omega) (by omega)]

theorem split_path_nil : split_path [] = [] := rfl

/-- The splitter, one character at a time. -/
theorem split_path_cons (c : Char) (cs : Str) :
    split_path (c :: cs) =
      if c = ':' then [] :: split_path cs
      else match split_path cs with
        | [] => [[c]]
        | k :: ks => (c :: k) :: ks := by
  by_cases h : c = ':'
  · simp [split_path, getline_loop, getline, h]
  · simp only [h, if_false]
    cases cs with
    | nil => simp [split_path, getline_loop, getline, h]
    | cons c2 cs2 =>
      have hlen := getline_snd_length_le ':' (c2 :: cs2)
      simp only [List.length_cons, Nat.add_sub_cancel] at hlen
      have e1 : split_path (c2 :: cs2)
          = (getline ':' (c2 :: cs2)).1 :: getline_loop cs2.length (getline ':' (c2 :: cs2)).2 := by
        simp [split_path, getline_loop]
      have e2 : split_path (c :: c2 :: cs2)
          = (c :: (getline ':' (c2 :: cs2)).1)
              :: getline_loop (cs2.length + 1) (getline ':' (c2 :: cs2)).2 := by
        simp only [split_path, List.length_cons, getline_loop, List.isEmpty_cons,
          Bool.false_eq_true, if_false]
        simp [getline, h]
      rw [e1, e2, getline_loop_fuel (cs2.length + 1) cs2.length _ (by omega) hlen]

theorem split_path_eq_nil_iff (p : Str) : split_path p = [] ↔ p = [] := by
  cases p with
  | nil => simp [split_path_nil]
  | cons c cs =>
    rw [split_path_cons]
    by_cases h : c = ':'
    · simp [h]
    · simp only [h, if_false]
      cases split_path cs <;> simp

theorem ends_open_cons_of_ne_nil (c : Char) {cs : Str} (h : cs ≠ []) :
    ends_open (c :: cs) ↔ ends_open cs := by
  cases cs with
  | nil => exact absurd rfl h
  | cons c2 cs2 => simp [ends_open]

theorem ends_open_singleton (c : Char) : ends_open [c] ↔ c = ':' := by
  simp [ends_open]

/-- The maximal `:`-free substrings are the keys, followed by one more, empty,
substring when the path is empty or ends in `:`. -/
theorem splitOn_eq_split_path_append (p : Str) :
    p.splitOn ':' = split_path p ++ (if ends_open p then [[]] else []) := by
  induction p with
  | nil => simp [split_path_nil, ends_open]
  | cons c cs ih =>
    rw [List.splitOn, List.splitOnP_cons, ← List.splitOn, split_path_cons, ih]
    by_cases h : c = ':'
    · subst h
      by_cases hcs : cs = []
      · subst hcs; simp [split_path_nil, ends_open]
      · simp [ends_open_cons_of_ne_nil ':' hcs]
    · simp only [beq_iff_eq, h, if_false]
      by_cases hcs : cs = []
      · subst hcs; simp [split_path_nil, ends_open, h]
      · have hne : split_path cs ≠ [] := fun e => hcs ((split_path_eq_nil_iff cs).mp e)
        simp only [ends_open_cons_of_ne_nil c hcs]
        cases hsp : split_path cs with
        | nil => exact absurd hsp hne
        | cons k ks => simp

theorem length_splitOn (p : Str) : (p.splitOn ':').length = p.count ':' + 1 := by
  induction p with
  | nil => simp
  | cons c cs ih =>
    rw [List.splitOn, List.splitOnP_cons, ← List.splitOn]
    by_cases h : c = ':'
    · subst h; simp [ih]
    · have h2 : ¬ (c == ':') = true := by simpa using h
      simp [h, ih, List.count_cons, h2]

/-- Splitting `p ++ ":" ++ q`: the keys of `p`, then those of `q`, with an
empty key in between when `p` is empty or ends in `:`. -/
theorem split_path_append_colon (p q : Str) :
    split_path (p ++ ':' :: q) =
      split_path p ++ (if ends_open p then [[]] else []) ++ split_path q := by
  induction p with
  | nil => simp [split_path_nil, split_path_cons, ends_open]
  | cons c cs ih =>
    rw [List.cons_append, split_path_cons, split_path_cons c cs, ih]
    by_cases h : c = ':'
    · subst h
      by_cases hcs : cs = []
      · subst hcs; simp [split_path_nil, ends_open]
      · simp [ends_open_cons_of_ne_nil ':' hcs]
    · simp only [h, if_false]
      by_cases hcs : cs = []
      · subst hcs; simp [split_path_nil, ends_open, h]
      · have hne : split_path cs ≠ [] := fun e => hcs ((split_path_eq_nil_iff cs).mp e)
        simp only [ends_open_cons_of_ne_nil c hcs]
        cases hsp : split_path cs with
        | nil => exact absurd hsp hne
        | cons k ks => simp

/-! ## The resolver loop -/

theorem resolve_keys_append (v : Value) (a b : List Str) :
    resolve_keys v (a ++ b) =
      match resolve_keys v a with
      | Outcome.found w => resolve_keys w b
      | Outcome.failed e => Outcome.failed e
      | Outcome.uncaught_out_of_range => Outcome.uncaught_out_of_range := by
  induction a generalizing v with
  | nil => simp [resolve_keys]
  | cons k ks ih =>
    simp only [List.cons_append, resolve_keys]
    cases hstep : resolve_step v k with
    | found next => simpa using ih next
    | failed e => simp
    | uncaught_out_of_range => simp

theorem object_at_of_mem (obj : List (Str × Value)) (s : Str) (v : Value)
    (hu : unique_keys obj) (hm : (s, v) ∈ obj) : object_at obj s = some v := by
  induction obj with
  | nil => cases hm
  | cons kv rest ih =>
    obtain ⟨key, w⟩ := kv
    simp only [unique_keys, List.map_cons, List.nodup_cons] at hu
    rcases List.mem_cons.mp hm with heq | hmem
    · cases heq; simp [object_at]
    · have hne : key ≠ s := by
        intro e
        subst e
        exact hu.1 (List.mem_map.mpr ⟨(key, v), hmem, rfl⟩)
      simp only [object_at, hne, if_false]
      exact ih hu.2 hmem

theorem object_contains_of_mem (obj : List (Str × Value)) (s : Str) (v : Value)
    (hm : (s, v) ∈ obj) : object_contains obj s = true := by
  simp only [object_contains, List.any_eq_true, decide_eq_true_eq]
  exact ⟨(s, v), hm, rfl⟩

theorem object_contains_eq_false (obj : List (Str × Value)) (s : Str)
    (h : ∀ kv ∈ obj, kv.1 ≠ s) : object_contains obj s = false := by
  simp only [object_contains, List.any_eq_false, decide_eq_true_eq]
  exact h

/-! ## The pretty-printer: objects -/

/-- The object loop started at position `k` of `n` entries writes one line per
remaining entry, with a comma on every line but that of entry `n - 1`. -/
theorem print_members_enumFrom (os : Inserters) (d n : Nat) (rest : List (Str × Value)) :
    ∀ k : Nat, k + rest.length = n →
      print_members os rest d =
        ((rest.enumFrom k).map (fun ikv =>
          List.replicate (d + 2) ' ' ++ ['"'] ++ ikv.2.1 ++ ['"', ':', ' ']
            ++ pretty_print_json os ikv.2.2 (d + 2)
            ++ (if ikv.1 + 1 < n then [','] else []) ++ ['\n'])).flatten := by
  induction rest with
  | nil => intro k _; simp [print_members]
  | cons kv rest ih =>
    intro k hk
    obtain ⟨key, v⟩ := kv
    simp only [List.length_cons] at hk
    rw [print_members, ih (k + 1) (by omega)]
    simp only [List.enumFrom_cons, List.map_cons, List.flatten_cons, indent_str]
    have hcomma : (if rest.isEmpty = true then ([] : Str) else [',']) =
        (if k + 1 < n then [','] else []) := by
      cases rest with
      | nil =>
        have hn : ¬ k + 1 < n := by simp only [List.length_nil] at hk; omega
        simp [hn]
      | cons a as =>
        have hn : k + 1 < n := by simp only [List.length_cons] at hk; omega
        simp [hn]
    rw [hcomma]
    have hrep : List.replicate (d + 2) ' ' = List.replicate d ' ' ++ [' ', ' '] := by
      rw [show d + 2 = d + (1 + 1) from rfl, List.replicate_add]; rfl
    rw [hrep]
    simp [List.append_assoc]

/-- C1: for an Object with entries `(k_0,v_0), ..., (k_(n-1),v_(n-1))` in
insertion order and every indent `d`, `pretty_print_json` writes an opening
brace and a newline, then for each position `i` in order: `d + 2` spaces, a
double quote, the key `k_i`, the three characters quote, colon, space, the
rendering of `v_i` at indent `d + 2`, a comma exactly when `i + 1 < n`, and a
newline; and finally `d` spaces and the closing brace.  (Also true for `n = 0`,
where no entry line is written.) -/
theorem pretty_print_json_object (os : Inserters) (entries : List (Str × Value)) (d : Nat) :
    pretty_print_json os (Value.object entries) d =
      ['\x7b', '\n']
        ++ (entries.enum.map (fun ikv =>
              List.replicate (d + 2) ' ' ++ ['"'] ++ ikv.2.1 ++ ['"', ':', ' ']
                ++ pretty_print_json os ikv.2.2 (d + 2)
                ++ (if ikv.1 + 1 < entries.length then [','] else []) ++ ['\n'])).flatten
        ++ List.replicate d ' ' ++ ['\x7d'] := by
  rw [pretty_print_json, print_members_enumFrom os d entries.length entries 0 (by simp)]
  rfl

/-! ## Path resolution -/

/-- C2: in the document `{"a": {"b": [10, 20, 30]}}` the path `a:b:1` resolves
to the integer 20, `a:b:5` fails with IndexOutOfBounds, `a:b:x` fails with
InvalidArrayIndex and `a:z` fails with NotFound. -/
theorem resolve_doc_ab :
    resolve doc_ab "a:b:1".toList = Outcome.found (Value.int64 20)
    ∧ resolve doc_ab "a:b:5".toList = Outcome.failed ErrorKind.IndexOutOfBounds
    ∧ resolve doc_ab "a:b:x".toList = Outcome.failed ErrorKind.InvalidArrayIndex
    ∧ resolve doc_ab "a:z".toList = Outcome.failed ErrorKind.NotFound :=
  ⟨rfl, rfl, rfl, rfl⟩

/-- C3, as stated, fails when `p` is empty or ends in `:`.  In the document
`{"a": 1}` the empty path resolves (to the document itself), yet the path `:a`
fails with NotFound while `a` resolves against the document to 1.  Likewise
`a:` resolves to 1, yet `a::` fails with NotFound while the empty path resolves
against 1 to 1. -/
theorem resolve_compositional_counterexample :
    (resolve doc_a1 "".toList = Outcome.found doc_a1
      ∧ resolve doc_a1 ("".toList ++ ":".toList ++ "a".toList)
          = Outcome.failed ErrorKind.NotFound
      ∧ resolve doc_a1 "a".toList = Outcome.found (Value.int64 1))
    ∧ (resolve doc_a1 "a:".toList = Outcome.found (Value.int64 1)
      ∧ resolve doc_a1 ("a:".toList ++ ":".toList ++ "".toList)
          = Outcome.failed ErrorKind.NotFound
      ∧ resolve (Value.int64 1) "".toList = Outcome.found (Value.int64 1)) :=
  ⟨⟨rfl, rfl, rfl⟩, ⟨rfl, rfl, rfl⟩⟩

/-- C3, amended: for every value `v` and all paths `p`, `q` where `p` is not
empty and does not end in `:`, if resolving `p` against `v` succeeds with `w`,
then resolving `p ++ ":" ++ q` against `v` has the same outcome as resolving `q`
against `w`. -/
theorem resolve_compositional (v w : Value) (p q : Str) (hp : ¬ ends_open p)
    (h : resolve v p = Outcome.found w) :
    resolve v (p ++ ":".toList ++ q) = resolve w q := by
  have hsplit : split_path (p ++ ":".toList ++ q) = split_path p ++ split_path q := by
    have := split_path_append_colon p q
    simpa [hp] using this
  unfold resolve at h ⊢
  rw [hsplit, resolve_keys_append, h]

/-- The amended C3 at the document `{"a": {"b": [10, 20, 30]}}` with `p = a` and
`q = b:1`. -/
theorem resolve_compositional_witness :
    ¬ ends_open "a".toList
    ∧ resolve doc_ab "a".toList
        = Outcome.found (Value.object [("b".toList,
            Value.array [Value.int64 10, Value.int64 20, Value.int64 30])])
    ∧ resolve doc_ab ("a".toList ++ ":".toList ++ "b:1".toList)
        = resolve (Value.object [("b".toList,
            Value.array [Value.int64 10, Value.int64 20, Value.int64 30])]) "b:1".toList :=
  ⟨by decide, rfl, resolve_compositional _ _ _ _ (by decide) rfl⟩

/-! ## `std::stoul` -/

theorem scan_digits_some_ne_none (cs : Str) (a : Nat) : scan_digits cs (some a) ≠ none := by
  induction cs generalizing a with
  | nil => simp [scan_digits]
  | cons c cs ih =>
    simp only [scan_digits]
    cases digit_value c with
    | none => simp
    | some d => exact ih _

/-- No digit is read exactly when the text does not begin with a digit. -/
theorem scan_digits_none_iff (body : Str) :
    scan_digits body none = none ↔ (body.head?.map Char.isDigit).getD false = false := by
  cases body with
  | nil => simp [scan_digits]
  | cons c cs =>
    by_cases hd : c.isDigit = true
    · simp [scan_digits, digit_value, hd, scan_digits_some_ne_none]
    · simp [scan_digits, digit_value, hd]

theorem has_index_prefix_eq (s : Str) :
    has_index_prefix s
      = (((strip_sign (skip_space s)).2).head?.map Char.isDigit).getD false := by
  unfold has_index_prefix skip_space
  cases List.dropWhile isspace s with
  | nil => simp [strip_sign]
  | cons c rest =>
    by_cases hm : c = '-'
    · subst hm
      cases rest <;> simp [strip_sign]
    · by_cases hp : c = '+'
      · subst hp
        cases rest <;> simp [strip_sign]
      · simp [strip_sign, hm, hp]

/-- The call `std::stoul(s)` throws `std::invalid_argument` exactly when `s` has no
digit after its leading white space and optional sign. -/
theorem stoul_invalid_argument_iff (s : Str) :
    stoul s = StoulResult.invalid_argument ↔ has_index_prefix s = false := by
  rw [has_index_prefix_eq, ← scan_digits_none_iff]
  simp only [stoul]
  generalize scan_digits (strip_sign (skip_space s)).2 none = r
  cases r with
  | none => simp
  | some m =>
    simp only [reduceCtorEq, iff_false]
    split <;> simp

/-- C4, as stated, fails: on the array `[10, 20, 30]` the segments `+1`, ` 1`
(with a leading blank) and `1x` are not digit-only literals and select the
element 20, `-0` selects the element 10, and `-1` fails with IndexOutOfBounds
instead of InvalidArrayIndex. -/
theorem resolve_step_array_lenient_counterexample :
    (is_index_literal "+1".toList = false
      ∧ resolve_step doc_array "+1".toList = Outcome.found (Value.int64 20))
    ∧ (is_index_literal " 1".toList = false
      ∧ resolve_step doc_array " 1".toList = Outcome.found (Value.int64 20))
    ∧ (is_index_literal "1x".toList = false
      ∧ resolve_step doc_array "1x".toList = Outcome.found (Value.int64 20))
    ∧ (is_index_literal "-0".toList = false
      ∧ resolve_step doc_array "-0".toList = Outcome.found (Value.int64 10))
    ∧ (is_index_literal "-1".toList = false
      ∧ resolve_step doc_array "-1".toList = Outcome.failed ErrorKind.IndexOutOfBounds) :=
  ⟨⟨by decide, rfl⟩, ⟨by decide, rfl⟩, ⟨by decide, rfl⟩, ⟨by decide, rfl⟩, ⟨by decide, rfl⟩⟩

/-- C4, amended: for every Array node and every segment, the resolver's step
fails with InvalidArrayIndex exactly when the segment has no decimal digit
right after its leading white space and at most one sign character; for such
a segment no element is selected. -/
theorem resolve_step_array_invalid_index (arr : List Value) (s : Str) :
    resolve_step (Value.array arr) s = Outcome.failed ErrorKind.InvalidArrayIndex
      ↔ has_index_prefix s = false := by
  rw [← stoul_invalid_argument_iff]
  unfold resolve_step
  cases h : stoul s with
  | value index =>
    simp only [reduceCtorEq, iff_false]
    split <;> simp
  | invalid_argument => simp
  | out_of_range => simp

/-- C5 fails in the code above `ULONG_MAX`: the segment is the numeral of
`2^64`, the array `[10, 20, 30]` has 3 elements, and the step ends with the
uncaught `std::out_of_range` instead of IndexOutOfBounds. -/
theorem resolve_step_numeral_out_of_range :
    Nat.toDigits 10 (2 ^ 64) = "18446744073709551616".toList
    ∧ resolve_step doc_array "18446744073709551616".toList = Outcome.uncaught_out_of_range :=
  ⟨by decide, rfl⟩

/-- C6 fails in the code: for the document `[10, 20, 30]` and the path
`18446744073709551616` the call of `print_value` does not return; the
`std::out_of_range` thrown by `std::stoul` leaves it. -/
theorem print_value_throws_out_of_range (os : Inserters) :
    print_value os doc_array "18446744073709551616".toList
      = PrintValueResult.threw_out_of_range :=
  rfl

/-! ## Empty path, shape of the key list -/

/-- C7, as stated, fails: the empty path resolves, to the root itself, against
the root `null` and against the root `{"a": 1}`, neither of which is an Object
with an empty-string key. -/
theorem resolve_empty_path_counterexample :
    resolve Value.null "".toList = Outcome.found Value.null
    ∧ resolve doc_a1 "".toList = Outcome.found doc_a1
    ∧ object_contains [("a".toList, Value.int64 1)] "".toList = false :=
  ⟨rfl, rfl, rfl⟩

/-- C7, amended: the empty path has no segment and resolves to the root itself,
for every root.  One empty segment is what the path `:` has; resolving it gives
the entry's value on an Object with the empty-string key, NotFound on an Object
without it and on a String, Int64, UInt64, Double, Bool or Null root, and
InvalidArrayIndex on an Array root. -/
theorem resolve_empty_path :
    (∀ v : Value, resolve v "".toList = Outcome.found v)
    ∧ split_path ":".toList = ["".toList]
    ∧ (∀ (obj : List (Str × Value)) (v : Value), unique_keys obj → ("".toList, v) ∈ obj →
        resolve (Value.object obj) ":".toList = Outcome.found v)
    ∧ (∀ obj : List (Str × Value), (∀ kv ∈ obj, kv.1 ≠ "".toList) →
        resolve (Value.object obj) ":".toList = Outcome.failed ErrorKind.NotFound)
    ∧ (∀ arr : List Value,
        resolve (Value.array arr) ":".toList = Outcome.failed ErrorKind.InvalidArrayIndex)
    ∧ (∀ v : Value, (∀ obj, v ≠ Value.object obj) → (∀ arr, v ≠ Value.array arr) →
        resolve v ":".toList = Outcome.failed ErrorKind.NotFound) := by
  refine ⟨fun v => rfl, rfl, ?_, ?_, fun arr => rfl, ?_⟩
  · intro obj v hu hm
    have h1 := object_contains_of_mem obj [] v hm
    have h2 := object_at_of_mem obj [] v hu hm
    show resolve_keys (Value.object obj) [[]] = Outcome.found v
    simp [resolve_keys, resolve_step, h1, h2]
  · intro obj h
    have h1 := object_contains_eq_false obj [] h
    show resolve_keys (Value.object obj) [[]] = Outcome.failed ErrorKind.NotFound
    simp [resolve_keys, resolve_step, h1]
  · intro v hobj harr
    show resolve_keys v [[]] = Outcome.failed ErrorKind.NotFound
    cases v with
    | object obj => exact absurd rfl (hobj obj)
    | array arr => exact absurd rfl (harr arr)
    | _ => rfl

/-- The amended C7 at the roots `{"": true}`, `{"a": 1}` and the string `s`. -/
theorem resolve_empty_path_witness :
    resolve (Value.object [("".toList, Value.bool true)]) ":".toList
      = Outcome.found (Value.bool true)
    ∧ resolve doc_a1 ":".toList = Outcome.failed ErrorKind.NotFound
    ∧ resolve (Value.string "s".toList) ":".toList = Outcome.failed ErrorKind.NotFound :=
  ⟨resolve_empty_path.2.2.1 _ _ (by simp [unique_keys]) (by simp),
   resolve_empty_path.2.2.2.1 _ (by simp),
   resolve_empty_path.2.2.2.2.2 _ (by simp) (by simp)⟩

/-- C8, as stated, fails: the path `a:` contains one `:` and has the single
segment `a` (not two segments), and the empty path contains no `:` and has no
segment (not one). -/
theorem split_path_length_counterexample :
    (List.count ':' "a:".toList = 1 ∧ split_path "a:".toList = ["a".toList])
    ∧ (List.count ':' "".toList = 0 ∧ split_path "".toList = []) :=
  ⟨⟨by decide, by decide⟩, ⟨by decide, by decide⟩⟩

/-- C8, amended: the segment list is the list of the maximal `:`-free
substrings of the path in order, without the last of them when the path is
empty or ends in `:`.  For a path with `k` occurrences of `:` it has `k + 1`
entries when the path is non-empty and does not end in `:`, and `k` entries
otherwise: a leading `:` and a doubled `::` each contribute an empty segment,
a trailing `:` does not. -/
theorem split_path_shape (p : Str) :
    split_path p = (if ends_open p then (p.splitOn ':').dropLast else p.splitOn ':')
    ∧ (split_path p).length = (if ends_open p then p.count ':' else p.count ':' + 1) := by
  have hs := splitOn_eq_split_path_append p
  have hl := length_splitOn p
  by_cases ho : ends_open p
  · simp only [ho, if_true] at hs ⊢
    rw [hs] at hl
    constructor
    · rw [hs, List.dropLast_concat]
    · simp only [List.length_append, List.length_singleton] at hl
      omega
  · simp only [ho, if_false, List.append_nil] at hs ⊢
    rw [hs] at hl
    exact ⟨hs.symm, hl⟩

/-! ## One step of the resolver -/

/-- C9: for every segment `s`: on an Object (with pairwise different keys)
that has an entry with key `s`, the step moves to that entry's value; on an
Object with no entry for `s` the step fails with NotFound, whatever `s` looks
like; on a String, Int64, UInt64, Double, Bool or Null node the step fails
with NotFound. -/
theorem resolve_step_object_scalar (s : Str) :
    (∀ (obj : List (Str × Value)) (v : Value), unique_keys obj → (s, v) ∈ obj →
        resolve_step (Value.object obj) s = Outcome.found v)
    ∧ (∀ obj : List (Str × Value), (∀ kv ∈ obj, kv.1 ≠ s) →
        resolve_step (Value.object obj) s = Outcome.failed ErrorKind.NotFound)
    ∧ (∀ x : Str, resolve_step (Value.string x) s = Outcome.failed ErrorKind.NotFound)
    ∧ (∀ i : Int, resolve_step (Value.int64 i) s = Outcome.failed ErrorKind.NotFound)
    ∧ (∀ u : Nat, resolve_step (Value.uint64 u) s = Outcome.failed ErrorKind.NotFound)
    ∧ (∀ d : Nat, resolve_step (Value.double d) s = Outcome.failed ErrorKind.NotFound)
    ∧ (∀ b : Bool, resolve_step (Value.bool b) s = Outcome.failed ErrorKind.NotFound)
    ∧ resolve_step Value.null s = Outcome.failed ErrorKind.NotFound := by
  refine ⟨?_, ?_, fun _ => rfl, fun _ => rfl, fun _ => rfl, fun _ => rfl, fun _ => rfl, rfl⟩
  · intro obj v hu hm
    simp [resolve_step, object_contains_of_mem obj s v hm, object_at_of_mem obj s v hu hm]
  · intro obj h
    simp [resolve_step, object_contains_eq_false obj s h]

/-- C9 at the object `{"0": null, "1": true}` with the segments `1` and `2`, and
at the empty object with the empty segment. -/
theorem resolve_step_object_scalar_witness :
    resolve_step (Value.object [("0".toList, Value.null), ("1".toList, Value.bool true)])
        "1".toList = Outcome.found (Value.bool true)
    ∧ resolve_step (Value.object [("0".toList, Value.null), ("1".toList, Value.bool true)])
        "2".toList = Outcome.failed ErrorKind.NotFound
    ∧ resolve_step (Value.object []) "".toList = Outcome.failed ErrorKind.NotFound :=
  ⟨(resolve_step_object_scalar "1".toList).1 _ _ (by simp [unique_keys]) (by simp),
   (resolve_step_object_scalar "2".toList).2.1 _ (by simp),
   (resolve_step_object_scalar "".toList).2.1 _ (by simp)⟩

/-! ## Errors end the resolution -/

/-- C10: if the segments `pre` resolve from `v` to `w` and the step for the
next segment `s` fails on `w` with the error kind `e`, then the resolution of
`pre`, `s` and any later segments `post` fails with exactly `e`. -/
theorem resolve_keys_error_terminal (v w : Value) (pre post : List Str) (s : Str)
    (e : ErrorKind) (hpre : resolve_keys v pre = Outcome.found w)
    (hstep : resolve_step w s = Outcome.failed e) :
    resolve_keys v (pre ++ s :: post) = Outcome.failed e := by
  rw [resolve_keys_append, hpre]
  simp [resolve_keys, hstep]

/-- C10 at the document `{"a": {"b": [10, 20, 30]}}`: the segments `a`, `b`
resolve to the array, the segment `x` fails on it with InvalidArrayIndex, and so
does the whole list `a`, `b`, `x`, `0`, `1`. -/
theorem resolve_keys_error_terminal_witness :
    resolve_keys doc_ab ["a".toList, "b".toList]
        = Outcome.found (Value.array [Value.int64 10, Value.int64 20, Value.int64 30])
    ∧ resolve_step (Value.array [Value.int64 10, Value.int64 20, Value.int64 30]) "x".toList
        = Outcome.failed ErrorKind.InvalidArrayIndex
    ∧ resolve_keys doc_ab (["a".toList, "b".toList] ++ "x".toList :: ["0".toList, "1".toList])
        = Outcome.failed ErrorKind.InvalidArrayIndex :=
  ⟨rfl, rfl, resolve_keys_error_terminal _ _ _ _ _ _ rfl rfl⟩

/-! ## Decimal numerals as array indexes -/

theorem digit_value_digitChar (k : Nat) (hk : k < 10) :
    digit_value (Nat.digitChar k) = some k := by
  interval_cases k <;> rfl

theorem toDigitsCore_eq_append (fuel : Nat) :
    ∀ (n : Nat) (ds : Str), n < fuel →
      Nat.toDigitsCore 10 fuel n ds = Nat.toDigits 10 n ++ ds := by
  induction fuel using Nat.strong_induction_on with
  | _ fuel ih =>
    intro n ds hn
    cases fuel with
    | zero => omega
    | succ f =>
      by_cases h0 : n / 10 = 0
      · simp [Nat.toDigits, Nat.toDigitsCore, h0]
      · have hlt : n / 10 < n := by omega
        have e1 : Nat.toDigitsCore 10 (f + 1) n ds
            = Nat.toDigitsCore 10 f (n / 10) (Nat.digitChar (n % 10) :: ds) := by
          simp [Nat.toDigitsCore, h0]
        have e2 : Nat.toDigits 10 n
            = Nat.toDigitsCore 10 n (n / 10) [Nat.digitChar (n % 10)] := by
          simp [Nat.toDigits, Nat.toDigitsCore, h0]
        rw [e1, e2, ih f (by omega) (n / 10) _ (by omega), ih n (by omega) (n / 10) _ hlt]
        simp

/-- The numeral of `n`: one digit below ten, otherwise the numeral of `n / 10`
followed by the last digit. -/
theorem toDigits_unfold (n : Nat) :
    Nat.toDigits 10 n =
      if n < 10 then [Nat.digitChar n]
      else Nat.toDigits 10 (n / 10) ++ [Nat.digitChar (n % 10)] := by
  by_cases h : n < 10
  · have h0 : n / 10 = 0 := by omega
    have hm : n % 10 = n := by omega
    simp [Nat.toDigits, Nat.toDigitsCore, h0, hm, h]
  · have h0 : ¬ n / 10 = 0 := by omega
    have e2 : Nat.toDigits 10 n
        = Nat.toDigitsCore 10 n (n / 10) [Nat.digitChar (n % 10)] := by
      simp [Nat.toDigits, Nat.toDigitsCore, h0]
    rw [e2, toDigitsCore_eq_append n (n / 10) _ (by omega)]
    simp [h]

theorem scan_digits_append (xs ys : Str) (acc : Option Nat)
    (hx : ∀ c ∈ xs, digit_value c ≠ none) :
    scan_digits (xs ++ ys) acc = scan_digits ys (scan_digits xs acc) := by
  induction xs generalizing acc with
  | nil => simp [scan_digits]
  | cons c cs ih =>
    have hc := hx c (List.mem_cons_self _ _)
    simp only [List.cons_append, scan_digits]
    cases hd : digit_value c with
    | none => exact absurd hd hc
    | some d => exact ih _ (fun x hxm => hx x (List.mem_cons_of_mem _ hxm))

theorem toDigits_all_digits (n : Nat) : ∀ c ∈ Nat.toDigits 10 n, digit_value c ≠ none := by
  induction n using Nat.strong_induction_on with
  | _ n ih =>
    intro c hc
    rw [toDigits_unfold] at hc
    by_cases h : n < 10
    · simp only [h, if_true, List.mem_singleton] at hc
      subst hc
      simp [digit_value_digitChar n h]
    · simp only [h, if_false, List.mem_append, List.mem_singleton] at hc
      rcases hc with hc | hc
      · exact ih (n / 10) (by omega) c hc
      · subst hc
        simp [digit_value_digitChar (n % 10) (by omega)]

/-- Reading the numeral of `n` from the left gives `n`. -/
theorem scan_digits_toDigits (n : Nat) : scan_digits (Nat.toDigits 10 n) none = some n := by
  induction n using Nat.strong_induction_on with
  | _ n ih =>
    rw [toDigits_unfold]
    by_cases h : n < 10
    · simp [h, scan_digits, digit_value_digitChar n h]
    · simp only [h, if_false]
      rw [scan_digits_append _ _ _ (toDigits_all_digits (n / 10)), ih (n / 10) (by omega)]
      simp only [scan_digits, digit_value_digitChar (n % 10) (by omega), Option.getD_some]
      congr 1
      omega

theorem digit_not_space_sign (c : Char) (h : digit_value c ≠ none) :
    isspace c = false ∧ c ≠ '-' ∧ c ≠ '+' := by
  have hd : c.isDigit = true := by
    by_contra hn
    exact h (by simp [digit_value, hn])
  refine ⟨?_, ?_, ?_⟩
  · by_contra hs
    simp only [isspace, Bool.not_eq_false, Bool.or_eq_true, decide_eq_true_eq] at hs
    rcases hs with ((((hs | hs) | hs) | hs) | hs) | hs <;> (subst hs; exact absurd hd (by decide))
  · intro e; subst e; exact absurd hd (by decide)
  · intro e; subst e; exact absurd hd (by decide)

/-- What `std::stoul` returns for the numeral of a natural number: the number,
unless it exceeds `ULONG_MAX`. -/
theorem stoul_toDigits (n : Nat) :
    stoul (Nat.toDigits 10 n)
      = if n > ULONG_MAX then StoulResult.out_of_range else StoulResult.value n := by
  have hne : Nat.toDigits 10 n ≠ [] := by
    rw [toDigits_unfold]
    split <;> simp
  obtain ⟨c, cs, hcs⟩ : ∃ c cs, Nat.toDigits 10 n = c :: cs :=
    List.exists_cons_of_ne_nil hne
  have hc : digit_value c ≠ none := by
    apply toDigits_all_digits n
    rw [hcs]
    exact List.mem_cons_self _ _
  obtain ⟨h1, h2, h3⟩ := digit_not_space_sign c hc
  have hscan := scan_digits_toDigits n
  rw [hcs] at hscan
  have hskip : strip_sign (skip_space (c :: cs)) = (false, c :: cs) := by
    simp [skip_space, List.dropWhile, h1, strip_sign, h2, h3]
  rw [hcs]
  simp only [stoul, hskip, hscan]
  simp

/-- For every Array node and the numeral of every natural number `i`: when `i`
is at most `ULONG_MAX = 2^64 - 1`, the step moves to the element at index `i` if
`i` is less than the length and fails with IndexOutOfBounds otherwise; when
`i` exceeds `ULONG_MAX`, the step ends with the uncaught `std::out_of_range`. -/
theorem resolve_step_numeral (arr : List Value) (i : Nat) :
    resolve_step (Value.array arr) (Nat.toDigits 10 i) =
      if i > ULONG_MAX then Outcome.uncaught_out_of_range
      else if h : i < arr.length then Outcome.found (arr.get ⟨i, h⟩)
      else Outcome.failed ErrorKind.IndexOutOfBounds := by
  unfold resolve_step
  rw [stoul_toDigits]
  by_cases hbig : i > ULONG_MAX
  · simp [hbig]
  · simp [hbig]

/-! ## What `print_value` writes and returns -/

/-- How `print_value` ends, by the outcome of the resolution, for every value
and path.  When resolution fails with one of the three reported kinds,
`print_value` writes exactly that kind's message and returns the failure
status, and it returns the failure status in no other case; the three messages
are `Not found`, `Invalid array index` and `Index out of bounds` (each with a
newline) and pairwise different.  When resolution succeeds it writes exactly
the rendering of the resolved value at indent 0 and returns the success status.
When `std::stoul` throws `std::out_of_range`, `print_value` neither returns nor
writes. -/
theorem print_value_of_resolve (os : Inserters) (v : Value) (p : Str) :
    ((∃ out, print_value os v p = PrintValueResult.returned out EXIT_FAILURE)
        ↔ ∃ e, resolve v p = Outcome.failed e)
    ∧ (∀ e, resolve v p = Outcome.failed e →
        print_value os v p = PrintValueResult.returned (error_message e) EXIT_FAILURE
        ∧ (main_value os v p).2 = EXIT_FAILURE)
    ∧ (∀ w, resolve v p = Outcome.found w →
        print_value os v p
          = PrintValueResult.returned (pretty_print_json os w 0) EXIT_SUCCESS
        ∧ main_value os v p = (pretty_print_json os w 0, EXIT_SUCCESS))
    ∧ (resolve v p = Outcome.uncaught_out_of_range →
        print_value os v p = PrintValueResult.threw_out_of_range)
    ∧ error_message ErrorKind.NotFound = "Not found\n".toList
    ∧ error_message ErrorKind.InvalidArrayIndex = "Invalid array index\n".toList
    ∧ error_message ErrorKind.IndexOutOfBounds = "Index out of bounds\n".toList
    ∧ (∀ e1 e2, error_message e1 = error_message e2 → e1 = e2)
    ∧ EXIT_FAILURE ≠ EXIT_SUCCESS := by
  refine ⟨?_, ?_, ?_, ?_, rfl, rfl, rfl, ?_, by decide⟩
  · unfold print_value
    cases h : resolve v p with
    | found w => simp [EXIT_SUCCESS, EXIT_FAILURE]
    | failed e => simp
    | uncaught_out_of_range => simp
  · intro e h
    simp [print_value, main_value, h]
  · intro w h
    simp [print_value, main_value, h, EXIT_SUCCESS, EXIT_FAILURE]
  · intro h
    simp [print_value, h]
  · intro e1 e2 h
    cases e1 <;> cases e2 <;> first | rfl | (exact absurd h (by decide))

/-- C11 fails in the code: for the document `[10, 20, 30]` and the path
`18446744073709551616` resolution yields no sub-value, yet `print_value` does
not return the failure status (it returns no status at all: the
`std::out_of_range` of `std::stoul` leaves it) and no message is written to
`std::cout`; the handler of `main` writes to `std::cerr` only.  So "returns the
failure status exactly when resolution fails" does not hold for every value and
path. -/
theorem print_value_failure_unreported (os : Inserters) :
    (∀ w, resolve doc_array "18446744073709551616".toList ≠ Outcome.found w)
    ∧ (∀ out status, print_value os doc_array "18446744073709551616".toList
        ≠ PrintValueResult.returned out status)
    ∧ main_value os doc_array "18446744073709551616".toList = ([], EXIT_FAILURE)
    ∧ ¬ (∀ (v : Value) (p : Str),
          (∃ out, print_value os v p = PrintValueResult.returned out EXIT_FAILURE)
            ↔ ¬ ∃ w, resolve v p = Outcome.found w) := by
  have hr : resolve doc_array "18446744073709551616".toList
      = Outcome.uncaught_out_of_range := rfl
  have hp : print_value os doc_array "18446744073709551616".toList
      = PrintValueResult.threw_out_of_range := rfl
  refine ⟨?_, ?_, ?_, ?_⟩
  · intro w h
    rw [hr] at h
    cases h
  · intro out status h
    rw [hp] at h
    cases h
  · simp only [main_value, hp]
  · intro hall
    have h := (hall doc_array "18446744073709551616".toList).2
      (by rintro ⟨w, hw⟩; rw [hr] at hw; cases hw)
    obtain ⟨out, hout⟩ := h
    rw [hp] at hout
    cases hout

/-! ## The pretty-printer: arrays and empty containers -/

/-- The array loop started at position `k` of `n` elements writes one line per
remaining element, with a comma on every line but that of element `n - 1`. -/
theorem print_elements_enumFrom (os : Inserters) (d n : Nat) (rest : List Value) :
    ∀ k : Nat, k + rest.length = n →
      print_elements os rest d =
        ((rest.enumFrom k).map (fun iv =>
          List.replicate (d + 2) ' ' ++ pretty_print_json os iv.2 (d + 2)
            ++ (if iv.1 + 1 < n then [','] else []) ++ ['\n'])).flatten := by
  induction rest with
  | nil => intro k _; simp [print_elements]
  | cons v rest ih =>
    intro k hk
    simp only [List.length_cons] at hk
    rw [print_elements, ih (k + 1) (by omega)]
    simp only [List.enumFrom_cons, List.map_cons, List.flatten_cons, indent_str]
    have hcomma : (if rest.isEmpty = true then ([] : Str) else [',']) =
        (if k + 1 < n then [','] else []) := by
      cases rest with
      | nil =>
        have hn : ¬ k + 1 < n := by simp only [List.length_nil] at hk; omega
        simp [hn]
      | cons a as =>
        have hn : k + 1 < n := by simp only [List.length_cons] at hk; omega
        simp [hn]
    rw [hcomma]
    have hrep : List.replicate (d + 2) ' ' = List.replicate d ' ' ++ [' ', ' '] := by
      rw [show d + 2 = d + (1 + 1) from rfl, List.replicate_add]; rfl
    rw [hrep]

/-- C12: for an Array with elements `v_0, ..., v_(n-1)` and every indent `d`,
`pretty_print_json` writes an opening bracket and a newline, then for each
position `i` in index order: `d + 2` spaces, the rendering of `v_i` at indent
`d + 2`, a comma exactly when `i + 1 < n`, and a newline; and finally `d` spaces
and the closing bracket.  No key text is written.  (Also true for `n = 0`.) -/
theorem pretty_print_json_array (os : Inserters) (elems : List Value) (d : Nat) :
    pretty_print_json os (Value.array elems) d =
      ['[', '\n']
        ++ (elems.enum.map (fun iv =>
              List.replicate (d + 2) ' ' ++ pretty_print_json os iv.2 (d + 2)
                ++ (if iv.1 + 1 < elems.length then [','] else []) ++ ['\n'])).flatten
        ++ List.replicate d ' ' ++ [']'] := by
  rw [pretty_print_json, print_elements_enumFrom os d elems.length elems 0 (by simp)]
  rfl

/-- C13: for every indent `d`, the empty Object is written as an opening
brace, a newline, `d` spaces and a closing brace, and the empty Array as an
opening bracket, a newline, `d` spaces and a closing bracket; at indent 0 these
are the three characters brace, newline, brace resp. bracket, newline, bracket.
Neither output contains a comma. -/
theorem pretty_print_json_empty (os : Inserters) (d : Nat) :
    pretty_print_json os (Value.object []) d
        = "\x7b\n".toList ++ List.replicate d ' ' ++ "\x7d".toList
    ∧ pretty_print_json os (Value.array []) d
        = "[\n".toList ++ List.replicate d ' ' ++ "]".toList
    ∧ pretty_print_json os (Value.object []) 0 = "\x7b\n\x7d".toList
    ∧ pretty_print_json os (Value.array []) 0 = "[\n]".toList
    ∧ ',' ∉ pretty_print_json os (Value.object []) d
    ∧ ',' ∉ pretty_print_json os (Value.array []) d := by
  have ho : pretty_print_json os (Value.object []) d
      = "\x7b\n".toList ++ List.replicate d ' ' ++ "\x7d".toList := by
    simp [pretty_print_json, print_members, indent_str]
  have ha : pretty_print_json os (Value.array []) d
      = "[\n".toList ++ List.replicate d ' ' ++ "]".toList := by
    simp [pretty_print_json, print_elements, indent_str]
  refine ⟨ho, ha, ?_, ?_, ?_, ?_⟩
  · simp [pretty_print_json, print_members, indent_str]
  · simp [pretty_print_json, print_elements, indent_str]
  · rw [ho]; simp [List.mem_replicate]
  · rw [ha]; simp [List.mem_replicate]

/-! ## The pretty-printer: scalars -/

/-- C14, as stated, fails: for the document `{"x": 1, "y": [true, null, "s"]}`
the text written at indent 0 is not the one of the claim, because the string
element is written by Boost.JSON's inserter as the JSON string `"s"`, in double
quotes. -/
theorem pretty_print_json_doc_xy_counterexample :
    pretty_print_json (boost_inserters (fun _ => [])) doc_xy 0
      ≠ "\x7b\n  \"x\": 1,\n  \"y\": [\n    true,\n    null,\n    s\n  ]\n\x7d".toList := by
  decide

/-- C14, amended: for the document `{"x": 1, "y": [true, null, "s"]}` (keys in
that order) the text written at indent 0 is exactly the claim's text with the
string element in double quotes: the last element line is four spaces and
`"s"`; there is no trailing newline. -/
theorem pretty_print_json_doc_xy (put_double : Nat → Str) :
    pretty_print_json (boost_inserters put_double) doc_xy 0
      = "\x7b\n  \"x\": 1,\n  \"y\": [\n    true,\n    null,\n    \"s\"\n  ]\n\x7d".toList := by
  rfl

/-- C15, as stated, fails: the String value `s` is written as the three
characters `"s"`, not as the one character `s`. -/
theorem pretty_print_json_string_counterexample :
    pretty_print_json (boost_inserters (fun _ => [])) (Value.string "s".toList) 0
        = "\"s\"".toList
    ∧ "\"s\"".toList ≠ "s".toList := by
  decide

/-- C15, amended: for every String value `s` and every indent `d`, the printer
hands `s` to the stream inserter of `json::string` and adds nothing of its own,
no indentation in particular; the inserter writes `s` serialized as JSON: a
double quote, the characters of `s` with `"`, `\` and the control characters
escaped, and a double quote.  So a String value, like an object key, appears
between double quotes. -/
theorem pretty_print_json_string (put_double : Nat → Str) (s : Str) (d : Nat) :
    pretty_print_json (boost_inserters put_double) (Value.string s) d
        = ['"'] ++ s.flatMap escape_char ++ ['"']
    ∧ (∀ os : Inserters, pretty_print_json os (Value.string s) d = os.put_string s)
    ∧ ((∀ c ∈ s, c ≠ '"' ∧ c ≠ '\\' ∧ 32 ≤ c.toNat) →
        pretty_print_json (boost_inserters put_double) (Value.string s) d
          = ['"'] ++ s ++ ['"']) := by
  refine ⟨rfl, fun os => rfl, ?_⟩
  intro h
  have hflat : s.flatMap escape_char = s := by
    clear d
    induction s with
    | nil => rfl
    | cons c cs ih =>
      obtain ⟨h1, h2, h3⟩ := h c (List.mem_cons_self _ _)
      have hc : escape_char c = [c] := by
        have e1 : c ≠ '\x08' := by intro e; subst e; revert h3; decide
        have e2 : c ≠ '\t' := by intro e; subst e; revert h3; decide
        have e3 : c ≠ '\n' := by intro e; subst e; revert h3; decide
        have e4 : c ≠ '\x0c' := by intro e; subst e; revert h3; decide
        have e5 : c ≠ '\r' := by intro e; subst e; revert h3; decide
        have e6 : ¬ c.toNat < 32 := by omega
        simp [escape_char, h1, h2, e1, e2, e3, e4, e5, e6]
      rw [List.flatMap_cons, hc, ih (fun x hx => h x (List.mem_cons_of_mem _ hx))]
      rfl
  show ['"'] ++ s.flatMap escape_char ++ ['"'] = ['"'] ++ s ++ ['"']
  rw [hflat]

/-- The amended C15 at the string `a b` and indent 4. -/
theorem pretty_print_json_string_witness :
    pretty_print_json (boost_inserters (fun _ => [])) (Value.string "a b".toList) 4
      = "\"a b\"".toList :=
  (pretty_print_json_string (fun _ => []) "a b".toList 4).2.2 (by decide)

/-! ## Integers, booleans, null -/

theorem digitChar_spec (k : Nat) (hk : k < 10) :
    (Nat.digitChar k).isDigit = true
    ∧ (Nat.digitChar k).toNat - '0'.toNat = k
    ∧ ((Nat.digitChar k) = '0' → k = 0) := by
  interval_cases k <;> decide

theorem toDigits_isDigit (n : Nat) : ∀ c ∈ Nat.toDigits 10 n, c.isDigit = true := by
  intro c hc
  have h := toDigits_all_digits n c hc
  by_contra hn
  exact h (by simp [digit_value, hn])

theorem toDigits_ne_nil (n : Nat) : Nat.toDigits 10 n ≠ [] := by
  rw [toDigits_unfold]
  split <;> simp

theorem foldl_toDigits (n : Nat) :
    (Nat.toDigits 10 n).foldl (fun m c => m * 10 + (c.toNat - '0'.toNat)) 0 = n := by
  induction n using Nat.strong_induction_on with
  | _ n ih =>
    rw [toDigits_unfold]
    by_cases h : n < 10
    · simp only [h, if_true, List.foldl_cons, List.foldl_nil]
      rw [(digitChar_spec n h).2.1]
      omega
    · simp only [h, if_false, List.foldl_append, List.foldl_cons, List.foldl_nil]
      rw [ih (n / 10) (by omega), (digitChar_spec (n % 10) (by omega)).2.1]
      omega

/-- A numeral has no leading zero: only the numeral of 0 begins with `0`. -/
theorem toDigits_head_zero (n : Nat) (h0 : (Nat.toDigits 10 n).head? = some '0') : n = 0 := by
  induction n using Nat.strong_induction_on with
  | _ n ih =>
    rw [toDigits_unfold] at h0
    by_cases h : n < 10
    · simp only [h, if_true, List.head?_cons, Option.some.injEq] at h0
      exact (digitChar_spec n h).2.2 h0
    · simp only [h, if_false] at h0
      rw [List.head?_append_of_ne_nil _ (toDigits_ne_nil _)] at h0
      have := ih (n / 10) (by omega) h0
      omega

theorem read_nat_toDigits (n : Nat) : read_nat (Nat.toDigits 10 n) = some n := by
  have hne := toDigits_ne_nil n
  have hall : (Nat.toDigits 10 n).all Char.isDigit = true :=
    List.all_eq_true.mpr (toDigits_isDigit n)
  have hemp : (Nat.toDigits 10 n).isEmpty = false := by
    cases hd : Nat.toDigits 10 n with
    | nil => exact absurd hd hne
    | cons a as => rfl
  simp only [read_nat, hemp, hall, foldl_toDigits]
  simp

theorem read_int_put_int64 (i : Int) : read_int (put_int64 i) = some i := by
  cases i with
  | ofNat n =>
    obtain ⟨c, cs, hcs⟩ := List.exists_cons_of_ne_nil (toDigits_ne_nil n)
    have hc : c ≠ '-' := by
      have hd := toDigits_isDigit n c (by rw [hcs]; exact List.mem_cons_self _ _)
      intro e; subst e; exact absurd hd (by decide)
    have hr := read_nat_toDigits n
    rw [hcs] at hr
    simp [put_int64, hcs, read_int, hc, hr]
  | negSucc n =>
    simp only [put_int64, read_int, if_true, read_nat_toDigits, Option.map_some']
    rfl

/-- C16: for every indent `d`, an Int64 `i` is written as the base-10 numeral
of `i`: the digits of a non-negative `i`, and a minus sign followed by the
digits of the magnitude for a negative one; a UInt64 `u` as the digits of `u`.
The digits are decimal digits only (no separator), without a leading zero
(only the numeral of 0 begins with `0`), and reading the text back gives the
same integer, for every integer and so over the whole 64-bit ranges.  Bool is
written as `true` or `false` and Null as `null`. -/
theorem pretty_print_json_scalar (os : Inserters) (d : Nat) :
    (∀ n : Nat, pretty_print_json os (Value.int64 (n : Int)) d = Nat.toDigits 10 n)
    ∧ (∀ n : Nat, 0 < n →
        pretty_print_json os (Value.int64 (-(n : Int))) d = '-' :: Nat.toDigits 10 n)
    ∧ (∀ u : Nat, pretty_print_json os (Value.uint64 u) d = Nat.toDigits 10 u)
    ∧ (∀ i : Int, read_int (pretty_print_json os (Value.int64 i) d) = some i)
    ∧ (∀ u : Nat, read_nat (pretty_print_json os (Value.uint64 u) d) = some u)
    ∧ (∀ n : Nat, ∀ c ∈ Nat.toDigits 10 n, c.isDigit = true)
    ∧ (∀ n : Nat, (Nat.toDigits 10 n).head? = some '0' → n = 0)
    ∧ pretty_print_json os (Value.bool true) d = "true".toList
    ∧ pretty_print_json os (Value.bool false) d = "false".toList
    ∧ pretty_print_json os Value.null d = "null".toList := by
  refine ⟨fun n => rfl, ?_, fun u => rfl, ?_, ?_, toDigits_isDigit, toDigits_head_zero,
    rfl, rfl, rfl⟩
  · intro n hn
    obtain ⟨m, rfl⟩ := Nat.exists_eq_succ_of_ne_zero (Nat.pos_iff_ne_zero.mp hn)
    rfl
  · intro i
    show read_int (put_int64 i) = some i
    exact read_int_put_int64 i
  · intro u
    show read_nat (put_uint64 u) = some u
    exact read_nat_toDigits u

/-- C16 at the ends of the 64-bit ranges: `-2^63`, `2^63 - 1` and `2^64 - 1`. -/
theorem pretty_print_json_scalar_witness :
    pretty_print_json (boost_inserters (fun _ => [])) (Value.int64 (-(9223372036854775808 : Nat))) 0
        = "-9223372036854775808".toList
    ∧ read_int "9223372036854775807".toList = some 9223372036854775807
    ∧ pretty_print_json (boost_inserters (fun _ => [])) (Value.uint64 18446744073709551615) 2
        = "18446744073709551615".toList :=
  ⟨by
      rw [(pretty_print_json_scalar _ 0).2.1 9223372036854775808 (by decide)]
      decide,
   by
      have h := (pretty_print_json_scalar (boost_inserters (fun _ => [])) 0).2.2.2.1
        9223372036854775807
      have e : pretty_print_json (boost_inserters (fun _ => []))
          (Value.int64 9223372036854775807) 0 = "9223372036854775807".toList := by
        rw [show (9223372036854775807 : Int) = ((9223372036854775807 : Nat) : Int) from rfl,
          (pretty_print_json_scalar _ 0).1 9223372036854775807]
        decide
      rw [e] at h
      exact h,
   by
      rw [(pretty_print_json_scalar _ 2).2.2.1 18446744073709551615]
      decide⟩

/-! ## Totality -/

/-- C17: `pretty_print_json` is total.  For every value, whatever its nesting,
and every indent there is an output (the recursion is structural on the finite
tree, one call per node), and the value is handled by exactly the branch of
its variant, each of the eight variants having one. -/
theorem pretty_print_json_total (os : Inserters) (v : Value) (d : Nat) :
    ∃ out : Str, pretty_print_json os v d = out ∧
      ((∃ obj, v = Value.object obj ∧
          out = "\x7b\n".toList ++ print_members os obj d ++ List.replicate d ' ' ++ "\x7d".toList)
      ∨ (∃ arr, v = Value.array arr ∧
          out = "[\n".toList ++ print_elements os arr d ++ List.replicate d ' ' ++ "]".toList)
      ∨ (∃ s, v = Value.string s ∧ out = os.put_string s)
      ∨ (∃ i, v = Value.int64 i ∧ out = put_int64 i)
      ∨ (∃ u, v = Value.uint64 u ∧ out = put_uint64 u)
      ∨ (∃ b, v = Value.double b ∧ out = os.put_double b)
      ∨ (∃ b, v = Value.bool b ∧ out = (if b then "true".toList else "false".toList))
      ∨ (v = Value.null ∧ out = "null".toList)) := by
  refine ⟨pretty_print_json os v d, rfl, ?_⟩
  cases v with
  | object obj => exact Or.inl ⟨obj, rfl, rfl⟩
  | array arr => exact Or.inr (Or.inl ⟨arr, rfl, rfl⟩)
  | string s => exact Or.inr (Or.inr (Or.inl ⟨s, rfl, rfl⟩))
  | int64 i => exact Or.inr (Or.inr (Or.inr (Or.inl ⟨i, rfl, rfl⟩)))
  | uint64 u => exact Or.inr (Or.inr (Or.inr (Or.inr (Or.inl ⟨u, rfl, rfl⟩))))
  | double b => exact Or.inr (Or.inr (Or.inr (Or.inr (Or.inr (Or.inl ⟨b, rfl, rfl⟩)))))
  | bool b =>
    exact Or.inr (Or.inr (Or.inr (Or.inr (Or.inr (Or.inr (Or.inl ⟨b, rfl, rfl⟩))))))
  | null =>
    exact Or.inr (Or.inr (Or.inr (Or.inr (Or.inr (Or.inr (Or.inr ⟨rfl, rfl⟩))))))

/-! ## Keys with a colon -/

theorem colon_not_mem_split_path (p : Str) : ∀ s ∈ split_path p, ':' ∉ s := by
  induction p with
  | nil => intro s hs; simp [split_path_nil] at hs
  | cons c cs ih =>
    intro s hs
    rw [split_path_cons] at hs
    by_cases h : c = ':'
    · simp only [h, if_true, List.mem_cons] at hs
      rcases hs with rfl | hs
      · simp
      · exact ih s hs
    · simp only [h, if_false] at hs
      cases hsp : split_path cs with
      | nil =>
        simp only [hsp, List.mem_singleton] at hs
        subst hs
        simpa using fun e => h e.symm
      | cons k ks =>
        simp only [hsp, List.mem_cons] at hs
        rcases hs with rfl | hs
        · have hk := ih k (by rw [hsp]; exact List.mem_cons_self _ _)
          intro hmem
          rcases List.mem_cons.mp hmem with e | e
          · exact h e.symm
          · exact hk e
        · exact ih s (by rw [hsp]; exact List.mem_cons_of_mem _ hs)

theorem object_lookup_filter (obj : List (Str × Value)) (s : Str) (hs : ':' ∉ s) :
    object_contains (obj.filter (fun kv => decide (':' ∉ kv.1))) s = object_contains obj s
    ∧ object_at (obj.filter (fun kv => decide (':' ∉ kv.1))) s = object_at obj s := by
  induction obj with
  | nil => simp [object_contains, object_at]
  | cons kv rest ih =>
    obtain ⟨key, v⟩ := kv
    have ihc : (List.filter (fun kv => decide (':' ∉ kv.1)) rest).any (fun kv => decide (kv.1 = s))
        = rest.any (fun kv => decide (kv.1 = s)) := ih.1
    by_cases hk : ':' ∈ key
    · have hne : key ≠ s := by intro e; subst e; exact hs hk
      simp only [List.filter, hk, not_true_eq_false, decide_False]
      refine ⟨?_, ?_⟩
      · simp only [object_contains, List.any_cons, hne, decide_False, Bool.false_or]
        exact ihc
      · simp only [object_at, hne, if_false]
        exact ih.2
    · simp only [List.filter, hk, not_false_eq_true, decide_True]
      refine ⟨?_, ?_⟩
      · simp only [object_contains, List.any_cons]
        rw [ihc]
      · simp only [object_at]
        rw [ih.2]

/-- C18: no segment that the splitter produces contains `:`.  Hence a step
of the resolution on an Object never selects an entry whose key contains `:`:
for every segment of every path the step has the same outcome on the Object
as on the Object without those entries, and on an Object all of whose keys
contain `:` it fails with NotFound. -/
theorem colon_key_unreachable (p : Str) :
    (∀ s ∈ split_path p, ':' ∉ s)
    ∧ (∀ s ∈ split_path p, ∀ obj : List (Str × Value),
        resolve_step (Value.object obj) s
          = resolve_step (Value.object (obj.filter (fun kv => decide (':' ∉ kv.1)))) s)
    ∧ (∀ s ∈ split_path p, ∀ obj : List (Str × Value), (∀ kv ∈ obj, ':' ∈ kv.1) →
        resolve_step (Value.object obj) s = Outcome.failed ErrorKind.NotFound) := by
  refine ⟨colon_not_mem_split_path p, ?_, ?_⟩
  · intro s hs obj
    obtain ⟨h1, h2⟩ := object_lookup_filter obj s (colon_not_mem_split_path p s hs)
    simp only [resolve_step, h1, h2]
  · intro s hs obj hall
    have hns := colon_not_mem_split_path p s hs
    have hc : object_contains obj s = false :=
      object_contains_eq_false obj s (fun kv hkv e => hns (e ▸ hall kv hkv))
    simp [resolve_step, hc]

/-- C18 at the path `a:b` and the document `{"a:b": 1}`, whose only key
contains `:`: both segments fail with NotFound. -/
theorem colon_key_unreachable_witness :
    split_path "a:b".toList = ["a".toList, "b".toList]
    ∧ resolve_step (Value.object [("a:b".toList, Value.int64 1)]) "a".toList
        = Outcome.failed ErrorKind.NotFound
    ∧ resolve_step (Value.object [("a:b".toList, Value.int64 1)]) "b".toList
        = Outcome.failed ErrorKind.NotFound :=
  ⟨by decide,
   (colon_key_unreachable "a:b".toList).2.2 "a".toList (by decide) _ (by decide),
   (colon_key_unreachable "a:b".toList).2.2 "b".toList (by decide) _ (by decide)⟩

/-! ## Shape of the segment list -/

theorem intercalate_append_nil (sep : Char) (l : List Str) (hl : l ≠ []) :
    [sep].intercalate (l ++ [[]]) = [sep].intercalate l ++ [sep] := by
  induction l with
  | nil => exact absurd rfl hl
  | cons x t ih =>
    cases t with
    | nil => simp [List.intercalate, List.intersperse]
    | cons y t2 =>
      have := ih (by simp)
      simp only [List.intercalate, List.cons_append, List.intersperse, List.flatten_cons,
        List.append_assoc] at this ⊢
      simp only [List.append_eq, List.nil_append]
      rw [this]

/-- The path is empty or ends in `:` exactly when the last of its maximal
`:`-free substrings is empty. -/
theorem ends_open_iff_getLast (p : Str) :
    ends_open p ↔ (p.splitOn ':').getLast? = some [] := by
  have hs := splitOn_eq_split_path_append p
  constructor
  · intro h
    rw [hs]
    simp [h]
  · intro h
    by_contra hno
    have hp := List.intercalate_splitOn p ':'
    obtain ⟨l, hl⟩ : ∃ l, p.splitOn ':' = l ++ [[]] := by
      have hne : p.splitOn ':' ≠ [] := List.splitOnP_ne_nil _ _
      have h2 := List.dropLast_append_getLast? [] (by simpa using h)
      exact ⟨(p.splitOn ':').dropLast, by simpa using h2.symm⟩
    rw [hl] at hp
    by_cases hnil : l = []
    · subst hnil
      simp [List.intercalate, List.intersperse] at hp
      exact hno (Or.inl hp)
    · rw [intercalate_append_nil ':' l hnil] at hp
      apply hno
      right
      rw [← hp]
      simp

/-- C20: joining the segment list with `:` gives the path itself when the path
does not end in `:`, and the path without its last character when it does;
the segment list is the list of the maximal `:`-free substrings of the path
without the final one when that one is empty.  The empty path has no segment
and resolves to the root. -/
theorem split_path_join (p : Str) :
    [':'].intercalate (split_path p) = (if p.getLast? = some ':' then p.dropLast else p)
    ∧ split_path p
        = (if (p.splitOn ':').getLast? = some [] then (p.splitOn ':').dropLast
           else p.splitOn ':')
    ∧ split_path "".toList = []
    ∧ (∀ v : Value, resolve v "".toList = Outcome.found v) := by
  have hs := splitOn_eq_split_path_append p
  have hp := List.intercalate_splitOn p ':'
  refine ⟨?_, ?_, rfl, fun v => rfl⟩
  · by_cases ho : ends_open p
    · rcases ho with hnil | hlast
      · subst hnil
        simp [split_path_nil, List.intercalate]
      · have hne : p ≠ [] := by intro e; subst e; simp at hlast
        have hsp : split_path p ≠ [] := fun e => hne ((split_path_eq_nil_iff p).mp e)
        have ho : ends_open p := Or.inr hlast
        simp only [ho, if_true] at hs
        rw [hs, intercalate_append_nil ':' _ hsp] at hp
        have hd := congrArg List.dropLast hp
        simp only [List.dropLast_concat] at hd
        rw [if_pos hlast, ← hd]
    · have hlast : ¬ p.getLast? = some ':' := fun e => ho (Or.inr e)
      simp only [ho, if_false, List.append_nil] at hs
      rw [hs] at hp
      rw [if_neg hlast, hp]
  · by_cases ho : ends_open p
    · rw [if_pos ((ends_open_iff_getLast p).mp ho)]
      simp only [ho, if_true] at hs
      rw [hs, List.dropLast_concat]
    · rw [if_neg (fun e => ho ((ends_open_iff_getLast p).mpr e))]
      simp only [ho, if_false, List.append_nil] at hs
      exact hs.symm

/-! ## Indentation is a uniform shift -/

theorem shift_indent_append (e : Nat) (a b : Str) :
    shift_indent e (a ++ b) = shift_indent e a ++ shift_indent e b := by
  simp [shift_indent, List.flatMap_append]

theorem shift_indent_of_not_mem (e : Nat) (a : Str) (h : '\n' ∉ a) : shift_indent e a = a := by
  induction a with
  | nil => rfl
  | cons c cs ih =>
    have hc : c ≠ '\n' := fun e' => h (e' ▸ List.mem_cons_self _ _)
    have hcs : '\n' ∉ cs := fun m => h (List.mem_cons_of_mem _ m)
    have := ih hcs
    simp only [shift_indent, List.flatMap_cons, hc, if_false] at this ⊢
    rw [this]
    rfl

theorem shift_indent_newline (e : Nat) :
    shift_indent e ['\n'] = '\n' :: List.replicate e ' ' := by
  simp [shift_indent]

theorem newline_not_mem_replicate (n : Nat) : '\n' ∉ List.replicate n ' ' := by
  intro h
  exact absurd (List.eq_of_mem_replicate h) (by decide)

theorem newline_not_mem_toDigits (n : Nat) : '\n' ∉ Nat.toDigits 10 n := by
  intro h
  exact absurd (toDigits_isDigit n _ h) (by decide)

theorem newline_not_mem_put_int64 (i : Int) : '\n' ∉ put_int64 i := by
  cases i with
  | ofNat n => exact newline_not_mem_toDigits n
  | negSucc n =>
    intro h
    rcases List.mem_cons.mp h with e | e
    · exact absurd e (by decide)
    · exact newline_not_mem_toDigits _ e

theorem replicate_add_spaces (d e : Nat) :
    List.replicate (d + e) ' ' = List.replicate e ' ' ++ List.replicate d ' ' := by
  rw [Nat.add_comm, List.replicate_add]

mutual
theorem shift_value (os : Inserters) (hs : ∀ s, '\n' ∉ s → '\n' ∉ os.put_string s)
    (hd : ∀ b, '\n' ∉ os.put_double b) :
    ∀ (v : Value) (d e : Nat), newline_free v = true →
      pretty_print_json os v (d + e) = shift_indent e (pretty_print_json os v d)
  | Value.object obj, d, e, h => by
    have hm := shift_members os hs hd obj d e (by simpa [newline_free] using h)
    simp only [pretty_print_json, shift_indent_append, indent_str]
    rw [shift_indent_of_not_mem e _ (newline_not_mem_replicate d),
      shift_indent_of_not_mem e ['\x7d'] (by decide)]
    have h1 : shift_indent e ['\x7b', '\n'] = ['\x7b', '\n'] ++ List.replicate e ' ' := by
      simp [shift_indent]
    rw [h1, replicate_add_spaces]
    simp only [List.append_assoc]
    congr 1
    rw [← List.append_assoc (List.replicate e ' ') (shift_indent e _), hm, List.append_assoc]
  | Value.array arr, d, e, h => by
    have hm := shift_elements os hs hd arr d e (by simpa [newline_free] using h)
    simp only [pretty_print_json, shift_indent_append, indent_str]
    rw [shift_indent_of_not_mem e _ (newline_not_mem_replicate d),
      shift_indent_of_not_mem e [']'] (by decide)]
    have h1 : shift_indent e ['[', '\n'] = ['[', '\n'] ++ List.replicate e ' ' := by
      simp [shift_indent]
    rw [h1, replicate_add_spaces]
    simp only [List.append_assoc]
    congr 1
    rw [← List.append_assoc (List.replicate e ' ') (shift_indent e _), hm, List.append_assoc]
  | Value.string s, d, e, h => by
    have hn : '\n' ∉ s := by simpa [newline_free] using h
    simp only [pretty_print_json]
    rw [shift_indent_of_not_mem e _ (hs s hn)]
  | Value.int64 i, d, e, _ => by
    simp only [pretty_print_json]
    rw [shift_indent_of_not_mem e _ (newline_not_mem_put_int64 i)]
  | Value.uint64 u, d, e, _ => by
    simp only [pretty_print_json, put_uint64]
    rw [shift_indent_of_not_mem e _ (newline_not_mem_toDigits u)]
  | Value.double b, d, e, _ => by
    simp only [pretty_print_json]
    rw [shift_indent_of_not_mem e _ (hd b)]
  | Value.bool b, d, e, _ => by
    cases b <;> simp only [pretty_print_json] <;>
      rw [shift_indent_of_not_mem e _ (by decide)]
  | Value.null, d, e, _ => by
    simp only [pretty_print_json]
    rw [shift_indent_of_not_mem e _ (by decide)]
theorem shift_members (os : Inserters) (hs : ∀ s, '\n' ∉ s → '\n' ∉ os.put_string s)
    (hd : ∀ b, '\n' ∉ os.put_double b) :
    ∀ (obj : List (Str × Value)) (d e : Nat), members_newline_free obj = true →
      List.replicate e ' ' ++ shift_indent e (print_members os obj d)
        = print_members os obj (d + e) ++ List.replicate e ' '
  | [], d, e, _ => by simp [print_members, shift_indent]
  | (key, v) :: rest, d, e, h => by
    simp only [members_newline_free, Bool.and_eq_true, decide_eq_true_eq] at h
    obtain ⟨⟨hk, hv⟩, hr⟩ := h
    have ihv := shift_value os hs hd v (d + 2) e hv
    have ihr := shift_members os hs hd rest d e hr
    have hidx : d + e + 2 = d + 2 + e := by omega
    have hcomma : shift_indent e (if rest.isEmpty = true then ([] : Str) else [','])
        = (if rest.isEmpty = true then ([] : Str) else [',']) := by
      apply shift_indent_of_not_mem
      split <;> decide
    simp only [print_members, shift_indent_append, indent_str, hidx, ihv, hcomma,
      shift_indent_newline]
    rw [shift_indent_of_not_mem e _ (newline_not_mem_replicate d),
      shift_indent_of_not_mem e [' ', ' ', '"'] (by decide),
      shift_indent_of_not_mem e key hk,
      shift_indent_of_not_mem e ['"', ':', ' '] (by decide),
      replicate_add_spaces]
    simp only [List.append_assoc, List.cons_append, List.nil_append] at ihr ⊢
    rw [ihr]
theorem shift_elements (os : Inserters) (hs : ∀ s, '\n' ∉ s → '\n' ∉ os.put_string s)
    (hd : ∀ b, '\n' ∉ os.put_double b) :
    ∀ (arr : List Value) (d e : Nat), elements_newline_free arr = true →
      List.replicate e ' ' ++ shift_indent e (print_elements os arr d)
        = print_elements os arr (d + e) ++ List.replicate e ' '
  | [], d, e, _ => by simp [print_elements, shift_indent]
  | v :: rest, d, e, h => by
    simp only [elements_newline_free, Bool.and_eq_true] at h
    obtain ⟨hv, hr⟩ := h
    have ihv := shift_value os hs hd v (d + 2) e hv
    have ihr := shift_elements os hs hd rest d e hr
    have hidx : d + e + 2 = d + 2 + e := by omega
    have hcomma : shift_indent e (if rest.isEmpty = true then ([] : Str) else [','])
        = (if rest.isEmpty = true then ([] : Str) else [',']) := by
      apply shift_indent_of_not_mem
      split <;> decide
    simp only [print_elements, shift_indent_append, indent_str, hidx, ihv, hcomma,
      shift_indent_newline]
    rw [shift_indent_of_not_mem e _ (newline_not_mem_replicate d),
      shift_indent_of_not_mem e [' ', ' '] (by decide),
      replicate_add_spaces]
    simp only [List.append_assoc, List.cons_append, List.nil_append] at ihr ⊢
    rw [ihr]
end

theorem takeWhile_shift_indent (e : Nat) (a : Str) :
    (shift_indent e a).takeWhile (fun c => decide (c ≠ '\n'))
      = a.takeWhile (fun c => decide (c ≠ '\n')) := by
  induction a with
  | nil => rfl
  | cons c cs ih =>
    by_cases hc : c = '\n'
    · subst hc
      simp [shift_indent, List.takeWhile]
    · have hsplit : shift_indent e (c :: cs) = c :: shift_indent e cs := by
        simp [shift_indent, hc]
      rw [hsplit]
      simp only [List.takeWhile, hc, ne_eq, not_false_eq_true, decide_True]
      rw [ih]

theorem digitChar_ne_newline (k : Nat) (hk : k < 16) : Nat.digitChar k ≠ '\n' := by
  interval_cases k <;> decide

theorem newline_not_mem_escape_char (c : Char) : '\n' ∉ escape_char c := by
  unfold escape_char
  split
  · decide
  split
  · decide
  split
  · decide
  split
  · decide
  split
  · decide
  split
  · decide
  split
  · decide
  split
  · rename_i hlt
    have h1 := digitChar_ne_newline (c.toNat / 16) (by omega)
    have h2 := digitChar_ne_newline (c.toNat % 16) (by omega)
    intro hm
    simp only [List.mem_cons, List.mem_singleton, List.not_mem_nil, or_false] at hm
    rcases hm with e | e | e | e | e | e
    · exact absurd e (by decide)
    · exact absurd e (by decide)
    · exact absurd e (by decide)
    · exact absurd e (by decide)
    · exact h1 e.symm
    · exact h2 e.symm
  · rename_i h1 h2 h3 h4 hn h6 h7 h8
    intro hm
    exact hn (List.mem_singleton.mp hm).symm

/-- The Boost.JSON inserter never writes a newline: it escapes the newlines of
the string. -/
theorem newline_not_mem_serialize_string (s : Str) : '\n' ∉ serialize_string s := by
  intro hm
  simp only [serialize_string, List.mem_append, List.mem_singleton, List.mem_flatMap] at hm
  rcases hm with (e | ⟨c, _, hc⟩) | e
  · exact absurd e (by decide)
  · exact newline_not_mem_escape_char c hc
  · exact absurd e (by decide)

/-- C19: for inserters that write no newline for a String without newline and
none for a Double, for every Value none of whose String values or Object keys
contains a newline, and all indents `d`, `e`: the rendering at indent `d + e`
is the rendering at indent `d` with `e` spaces inserted right after every
newline; so the rendering at indent `d` is the rendering at indent 0 with `d`
spaces inserted after every newline, and the first line is the same at every
indent. -/
theorem pretty_print_json_indent_shift (os : Inserters)
    (hs : ∀ s, '\n' ∉ s → '\n' ∉ os.put_string s) (hd : ∀ b, '\n' ∉ os.put_double b)
    (v : Value) (hv : newline_free v = true) (d e : Nat) :
    pretty_print_json os v (d + e) = shift_indent e (pretty_print_json os v d)
    ∧ pretty_print_json os v d = shift_indent d (pretty_print_json os v 0)
    ∧ (pretty_print_json os v d).takeWhile (fun c => decide (c ≠ '\n'))
        = (pretty_print_json os v 0).takeWhile (fun c => decide (c ≠ '\n')) := by
  have h0 : pretty_print_json os v d = shift_indent d (pretty_print_json os v 0) := by
    have := shift_value os hs hd v 0 d hv
    rwa [Nat.zero_add] at this
  refine ⟨shift_value os hs hd v d e hv, h0, ?_⟩
  rw [h0, takeWhile_shift_indent]

/-- C19 at the document `{"x": 1, "y": [true, null, "s"]}` with `d = 2` and
`e = 4`, for the Boost.JSON string inserter. -/
theorem pretty_print_json_indent_shift_witness :
    newline_free doc_xy = true
    ∧ pretty_print_json (boost_inserters (fun _ => [])) doc_xy (2 + 4)
        = shift_indent 4 (pretty_print_json (boost_inserters (fun _ => [])) doc_xy 2) :=
  ⟨by decide,
   (pretty_print_json_indent_shift (boost_inserters (fun _ => []))
      (fun s _ => newline_not_mem_serialize_string s) (fun _ => List.not_mem_nil _)
      doc_xy (by decide) 2 4).1⟩

end Json
